import Mathlib

/-!
Shallow embedding of the seismic-attributes core (seismic_attrs.py):
configuration-string parsing, SEG-Y cube loading with bulk and
trace-by-trace fallback paths, volume normalization, and the semblance
coherence kernel.  Amplitudes are modelled as real numbers; Python
strings are modelled as lists of characters.
-/

namespace SeismicAttrs

/-! ### Python string helpers -/

/-- Splitting a character list at a separator, mirroring the Python
method str.split(sep): adjacent separators yield empty fields and the
result always has one more field than there are separators. -/
def splitChar (sep : Char) : List Char → List (List Char)
  | [] => [[]]
  | c :: rest =>
    let r := splitChar sep rest
    if c = sep then [] :: r
    else
      match r with
      | [] => [[c]]
      | g :: gs => (c :: g) :: gs

/-- Value of a decimal digit character, none for non-digits. -/
def digitVal (c : Char) : Option ℕ :=
  if '0' ≤ c ∧ c ≤ '9' then some (c.toNat - Char.toNat '0') else none

/-- Left-to-right accumulation of decimal digits; the accumulator is
none while no digit has been consumed, so the empty string fails. -/
def parseNatDigits : List Char → Option ℕ → Option ℕ
  | [], acc => acc
  | c :: rest, acc =>
    match digitVal c with
    | none => none
    | some d => parseNatDigits rest (some (acc.getD 0 * 10 + d))

/-- Model of the Python int constructor on the strings the tool meets:
an optional leading minus sign followed by one or more decimal digits;
anything else raises, modelled as none. -/
def pyInt : List Char → Option ℤ
  | '-' :: rest => (parseNatDigits rest none).map fun n => -(n : ℤ)
  | s => (parseNatDigits s none).map fun n => (n : ℤ)

/-! ### Configuration parsing (parse_range, parse_patch) -/

/-- Embedding of parse_range: a range string start:end is split at the
colon, both parts are converted with int, and start must be strictly
below end; every failure (missing colon, wrong field count, non-numeric
field, start at or above end) raises ValueError, modelled as none. -/
def parse_range (s : String) : Option (ℤ × ℤ) :=
  if ':' ∈ s.data then
    match splitChar ':' s.data with
    | [a, b] =>
      match pyInt a, pyInt b with
      | some start, some stop => if start ≥ stop then none else some (start, stop)
      | _, _ => none
    | _ => none
  else none

/-- Rounding used by parse_patch: an even component is incremented to
the next odd value, an odd one is kept (Python % on negatives agrees
with Int.emod for the modulus 2). -/
def roundOdd (n : ℤ) : ℤ := if n % 2 = 1 then n else n + 1

/-- Embedding of parse_patch: the string py,px,pz is split at commas,
converted with int, each component is rounded up to odd, and only then
the lower bound 3 is checked; every failure is modelled as none. -/
def parse_patch (s : String) : Option (ℤ × ℤ × ℤ) :=
  match splitChar ',' s.data with
  | [a, b, c] =>
    match pyInt a, pyInt b, pyInt c with
    | some py0, some px0, some pz0 =>
      let py := roundOdd py0
      let px := roundOdd px0
      let pz := roundOdd pz0
      if py < 3 ∨ px < 3 ∨ pz < 3 then none else some (py, px, pz)
    | _, _, _ => none
  | _ => none

/-! ### Volumes -/

/-- Dense 3D amplitude volume: a shape together with a sample function;
only indices below the shape are meaningful. -/
structure Volume where
  n1 : ℕ
  n2 : ℕ
  n3 : ℕ
  val : ℕ → ℕ → ℕ → ℝ

/-- Shape triple of a volume. -/
def Volume.shape (v : Volume) : ℕ × ℕ × ℕ := (v.n1, v.n2, v.n3)

/-- Index clamping used by the nearest boundary mode of the scipy
uniform filter: an out-of-range index is replaced by the nearest valid
index. -/
def clampIdx (n : ℕ) (m : ℤ) : ℕ := (min (max m 0) ((n : ℤ) - 1)).toNat

/-- Index reflection used by np.pad in reflect mode: indices mirror at
both ends without repeating the edge sample (period 2n - 2). -/
def reflectIdx (n : ℕ) (m : ℤ) : ℕ :=
  if n ≤ 1 then 0
  else
    let r := m % (2 * (n : ℤ) - 2)
    if r < n then r.toNat else (2 * (n : ℤ) - 2 - r).toNat

/-! ### Normalizer -/

/-- Per-trace mean used by trace normalization (np.mean over the depth
samples of one trace). -/
noncomputable def traceMean (v : Volume) (i j : ℕ) : ℝ :=
  (∑ k in Finset.range v.n3, v.val i j k) / v.n3

/-- Per-trace population standard deviation (np.std). -/
noncomputable def traceStd (v : Volume) (i j : ℕ) : ℝ :=
  Real.sqrt ((∑ k in Finset.range v.n3, (v.val i j k - traceMean v i j) ^ 2) / v.n3)

/-- Trace branch of normalize_volume: every depth trace is z-scored
independently, with eps added to the standard deviation. -/
noncomputable def traceNormalizeV (v : Volume) (eps : ℝ) : Volume :=
  ⟨v.n1, v.n2, v.n3, fun i j k => (v.val i j k - traceMean v i j) / (traceStd v i j + eps)⟩

/-- Window-oddness adjustment: an even z window is incremented by one. -/
def adjOdd (w : ℕ) : ℕ := if w % 2 = 0 then w + 1 else w

/-- Sample of the reflect-padded volume along depth: position t of the
padded array holds the reflected sample at t - p. -/
noncomputable def zPadded (v : Volume) (p : ℕ) (i j t : ℕ) : ℝ :=
  v.val i j (reflectIdx v.n3 ((t : ℤ) - p))

/-- Local depth-window mean: the uniform filter of width adjOdd w, in
nearest boundary mode, applied to the reflect-padded volume, read at
padded position k + p (the stripped position k). -/
noncomputable def zLocalMean (v : Volume) (w : ℕ) (i j k : ℕ) : ℝ :=
  let wa := adjOdd w
  let p := wa / 2
  (∑ a in Finset.range wa,
    zPadded v p i j (clampIdx (v.n3 + 2 * p) ((k : ℤ) + p + a - p))) / wa

/-- Local depth-window mean of squares, computed like zLocalMean from
the squared padded volume. -/
noncomputable def zLocalMeanSq (v : Volume) (w : ℕ) (i j k : ℕ) : ℝ :=
  let wa := adjOdd w
  let p := wa / 2
  (∑ a in Finset.range wa,
    zPadded v p i j (clampIdx (v.n3 + 2 * p) ((k : ℤ) + p + a - p)) ^ 2) / wa

/-- Local variance from the moment identity E[x^2] - E[x]^2. -/
noncomputable def zLocalVar (v : Volume) (w : ℕ) (i j k : ℕ) : ℝ :=
  zLocalMeanSq v w i j k - zLocalMean v w i j k ^ 2

/-- Local standard deviation: the square root of the variance clamped
to be non-negative (np.maximum with 0), plus eps. -/
noncomputable def zLocalStd (v : Volume) (w : ℕ) (eps : ℝ) (i j k : ℕ) : ℝ :=
  Real.sqrt (max (zLocalVar v w i j k) 0) + eps

/-- Z-window branch of normalize_volume: every sample is z-scored with
the local depth-window statistics. -/
noncomputable def zWindowNormalizeV (v : Volume) (w : ℕ) (eps : ℝ) : Volume :=
  ⟨v.n1, v.n2, v.n3, fun i j k =>
    (v.val i j k - zLocalMean v w i j k) / zLocalStd v w eps i j k⟩

/-- Embedding of normalize_volume: mode none returns the input; the
trace branch runs for modes trace and both, the z-window branch for
modes z and both; any other mode string matches neither branch and the
copied input is returned unchanged. -/
noncomputable def normalize_volume (data : Volume) (mode : String)
    (z_window : ℕ) (eps : ℝ) : Volume :=
  if mode = "none" then data
  else
    let result := data
    let result := if mode = "trace" ∨ mode = "both" then traceNormalizeV result eps else result
    if mode = "z" ∨ mode = "both" then zWindowNormalizeV result z_window eps else result

/-! ### Coherence -/

/-- Three-dimensional scipy uniform filter in nearest boundary mode
with an odd window (py, px, pz): the mean of the window of samples
centred at the output position, indices clamped to the volume. -/
noncomputable def uniformFilter3 (v : Volume) (py px pz : ℕ) (i j k : ℕ) : ℝ :=
  (∑ a in Finset.range py, ∑ b in Finset.range px, ∑ c in Finset.range pz,
    v.val (clampIdx v.n1 ((i : ℤ) + a - py / 2))
          (clampIdx v.n2 ((j : ℤ) + b - px / 2))
          (clampIdx v.n3 ((k : ℤ) + c - pz / 2))) / (py * px * pz)

/-- Pointwise square of a volume (data ** 2). -/
noncomputable def volumeSq (v : Volume) : Volume :=
  ⟨v.n1, v.n2, v.n3, fun i j k => v.val i j k ^ 2⟩

/-- Embedding of coherence_3d.  sum_vals and sum_sq_vals are the scipy
uniform filters (window means) of the data and of its square.  The
final line of the source file is truncated after the division by
n_samples; modelled from the spec: the denominator completes as
n_samples * sum_sq_vals + eps with eps = 1e-6, the formula both the
docstring and the spec state. -/
noncomputable def coherence_3d (data : Volume) (patch : ℕ × ℕ × ℕ) : Volume :=
  let py := patch.1
  let px := patch.2.1
  let pz := patch.2.2
  let n_samples : ℝ := (py : ℝ) * px * pz
  let eps : ℝ := 1 / 1000000
  ⟨data.n1, data.n2, data.n3, fun i j k =>
    uniformFilter3 data py px pz i j k ^ 2 /
      (n_samples * uniformFilter3 (volumeSq data) py px pz i j k + eps)⟩

/-- Raw window sum with nearest boundary extension, following the words
of the spec (S1, and S2 when applied to the squared volume). -/
noncomputable def windowSum3 (v : Volume) (py px pz : ℕ) (i j k : ℕ) : ℝ :=
  ∑ a in Finset.range py, ∑ b in Finset.range px, ∑ c in Finset.range pz,
    v.val (clampIdx v.n1 ((i : ℤ) + a - py / 2))
          (clampIdx v.n2 ((j : ℤ) + b - px / 2))
          (clampIdx v.n3 ((k : ℤ) + c - pz / 2))

/-- Modelled from the spec: the per-sample coherence value the spec
asserts, S1 squared over N times S2 plus eps, with S1 the window sum of
amplitudes and S2 the window sum of squared amplitudes. -/
noncomputable def specSemblance (data : Volume) (patch : ℕ × ℕ × ℕ) (i j k : ℕ) : ℝ :=
  let py := patch.1
  let px := patch.2.1
  let pz := patch.2.2
  let n : ℝ := (py : ℝ) * px * pz
  windowSum3 data py px pz i j k ^ 2 /
    (n * windowSum3 (volumeSq data) py px pz i j k + 1 / 1000000)

/-- Constant-amplitude cube of shape 3 x 3 x 3, the failing input for
the coherence claims. -/
noncomputable def constVol (c : ℝ) : Volume := ⟨3, 3, 3, fun _ _ _ => c⟩

/-! ### Loader -/

/-- External trace source (the segyio file handle): extents along the
three axes and per-trace access by flat trace index, each trace being a
full depth-sample sequence. -/
structure SegySource where
  nIlines : ℕ
  nXlines : ℕ
  nSamples : ℕ
  trace : ℤ → ℕ → ℝ

/-- Contract of segyio.tools.cube on a regular cube: the dense array
holds the traces in inline-major order, cube[il, xl] being the trace
with flat index il * nXlines + xl. -/
noncomputable def segyCube (f : SegySource) (il xl s : ℕ) : ℝ :=
  f.trace ((il : ℤ) * f.nXlines + xl) s

/-- Normalization of one numpy slice bound against an axis of length n:
negative bounds wrap from the end and the result is clamped to [0, n]. -/
def sliceNorm (n : ℕ) (a : ℤ) : ℕ :=
  if a < 0 then (max (a + n) 0).toNat else min a.toNat n

/-- Crop start bound of one axis: the start of the given range, or 0
when no range was requested. -/
def rStart (r : Option (ℤ × ℤ)) : ℤ := (r.map Prod.fst).getD 0

/-- Crop end bound of one axis: the end of the given range, or the
native extent when no range was requested. -/
def rEnd (n : ℕ) (r : Option (ℤ × ℤ)) : ℤ := (r.map Prod.snd).getD n

/-- Bulk (primary) path of load_segy_cube: the whole source is read as
a dense cube, then the requested sub-range is sliced out with numpy
slice semantics; validation rejects exactly an end bound beyond the
native extent on its axis. -/
noncomputable def load_segy_cube (f : SegySource) (ilR xlR zR : Option (ℤ × ℤ)) :
    Except String Volume :=
  let ilS := rStart ilR; let ilE := rEnd f.nIlines ilR
  let xlS := rStart xlR; let xlE := rEnd f.nXlines xlR
  let zS := rStart zR; let zE := rEnd f.nSamples zR
  if ilE > (f.nIlines : ℤ) ∨ xlE > (f.nXlines : ℤ) ∨ zE > (f.nSamples : ℤ) then
    Except.error "Crop ranges exceed cube dimensions"
  else
    let s1 := sliceNorm f.nIlines ilS; let e1 := sliceNorm f.nIlines ilE
    let s2 := sliceNorm f.nXlines xlS; let e2 := sliceNorm f.nXlines xlE
    let s3 := sliceNorm f.nSamples zS; let e3 := sliceNorm f.nSamples zE
    Except.ok ⟨e1 - s1, e2 - s2, e3 - s3,
      fun i j k => segyCube f (s1 + i) (s2 + j) (s3 + k)⟩

/-- Fallback path of load_segy_cube: a zero array of shape end - start
per axis is pre-allocated, then one trace at a time, at flat index
il * nXlines + xl, has its depth slice written to the matching row;
validation is the same end-bound check as the bulk path. -/
noncomputable def load_segy_cube_fallback (f : SegySource) (ilR xlR zR : Option (ℤ × ℤ)) :
    Except String Volume :=
  let ilS := rStart ilR; let ilE := rEnd f.nIlines ilR
  let xlS := rStart xlR; let xlE := rEnd f.nXlines xlR
  let zS := rStart zR; let zE := rEnd f.nSamples zR
  if ilE > (f.nIlines : ℤ) ∨ xlE > (f.nXlines : ℤ) ∨ zE > (f.nSamples : ℤ) then
    Except.error "Crop ranges exceed cube dimensions"
  else
    let sh1 := (ilE - ilS).toNat
    let sh2 := (xlE - xlS).toNat
    let sh3 := (zE - zS).toNat
    Except.ok ⟨sh1, sh2, sh3,
      fun i j k =>
        if i < sh1 ∧ j < sh2 ∧ k < sh3 then
          f.trace ((ilS + i) * f.nXlines + (xlS + j)) (sliceNorm f.nSamples zS + k)
        else 0⟩

/-- Validity of an optional crop range against an axis extent: a given
range must satisfy 0 ≤ start < end ≤ extent; a missing range is always
valid (it defaults to the full axis). -/
def validRangeOpt (n : ℕ) : Option (ℤ × ℤ) → Prop
  | none => True
  | some r => 0 ≤ r.1 ∧ r.1 < r.2 ∧ r.2 ≤ (n : ℤ)

/-- Decimal rendering of a natural number, most significant digit
first, used to state round-trip properties of the range parser. -/
def renderNat (n : ℕ) : List Char :=
  if n < 10 then [Char.ofNat (n + 48)]
  else renderNat (n / 10) ++ [Char.ofNat (n % 10 + 48)]
  termination_by n
  decreasing_by omega

/-- Decimal rendering of an integer, with a leading minus sign when
negative. -/
def renderInt (a : ℤ) : List Char :=
  if a < 0 then '-' :: renderNat (-a).toNat else renderNat a.toNat

/-- Small concrete volume used to instantiate universally quantified
theorems on explicit inputs. -/
noncomputable def vol0 : Volume := ⟨2, 2, 2, fun _ _ _ => 0⟩

/-- Small concrete trace source used to instantiate loader theorems on
explicit inputs. -/
noncomputable def srcA : SegySource := ⟨2, 3, 4, fun _ _ => 0⟩

/-! ### Helper lemmas -/

theorem roundOdd_emod (n : ℤ) : roundOdd n % 2 = 1 := by
  unfold roundOdd; split <;> omega

theorem uniformFilter3_constVol (c : ℝ) (i j k : ℕ) :
    uniformFilter3 (constVol c) 3 3 3 i j k = c := by
  simp [uniformFilter3, constVol, Finset.sum_const, Finset.card_range, smul_eq_mul]
  ring

theorem uniformFilter3_sq_constVol (c : ℝ) (i j k : ℕ) :
    uniformFilter3 (volumeSq (constVol c)) 3 3 3 i j k = c ^ 2 := by
  simp [uniformFilter3, volumeSq, constVol, Finset.sum_const, Finset.card_range, smul_eq_mul]
  ring

theorem windowSum3_constVol (c : ℝ) (i j k : ℕ) :
    windowSum3 (constVol c) 3 3 3 i j k = 27 * c := by
  simp [windowSum3, constVol, Finset.sum_const, Finset.card_range, smul_eq_mul]
  ring

theorem windowSum3_sq_constVol (c : ℝ) (i j k : ℕ) :
    windowSum3 (volumeSq (constVol c)) 3 3 3 i j k = 27 * c ^ 2 := by
  simp [windowSum3, volumeSq, constVol, Finset.sum_const, Finset.card_range, smul_eq_mul]
  ring

theorem validRangeOpt_bounds (n : ℕ) {r : Option (ℤ × ℤ)} (h : validRangeOpt n r) :
    0 ≤ rStart r ∧ rStart r ≤ rEnd n r ∧ rEnd n r ≤ (n : ℤ) := by
  cases r with
  | none => simp [rStart, rEnd]
  | some p =>
    obtain ⟨h1, h2, h3⟩ := h
    exact ⟨h1, le_of_lt h2, h3⟩

theorem sliceNorm_coe {n : ℕ} {a : ℤ} (h0 : 0 ≤ a) (hn : a ≤ (n : ℤ)) :
    (sliceNorm n a : ℤ) = a := by
  unfold sliceNorm; split <;> omega

theorem digitVal_ofNat {d : ℕ} (h : d < 10) : digitVal (Char.ofNat (d + 48)) = some d := by
  interval_cases d <;> decide

theorem ofNat_digit_ne_minus {d : ℕ} (h : d < 10) : Char.ofNat (d + 48) ≠ '-' := by
  interval_cases d <;> decide

theorem ofNat_digit_ne_colon {d : ℕ} (h : d < 10) : Char.ofNat (d + 48) ≠ ':' := by
  interval_cases d <;> decide

theorem parseNatDigits_append (xs ys : List Char) (acc : ℕ) :
    parseNatDigits (xs ++ ys) (some acc) =
      match parseNatDigits xs (some acc) with
      | none => none
      | some m => parseNatDigits ys (some m) := by
  induction xs generalizing acc with
  | nil => simp [parseNatDigits]
  | cons c rest ih =>
    simp only [List.cons_append, parseNatDigits]
    cases digitVal c with
    | none => simp
    | some d => simp [ih]

theorem renderNat_spec (n : ℕ) :
    (∀ c ∈ renderNat n, ∃ d : ℕ, d < 10 ∧ c = Char.ofNat (d + 48)) ∧
    ∀ acc : ℕ, parseNatDigits (renderNat n) (some acc) =
      some (acc * 10 ^ (renderNat n).length + n) := by
  induction n using Nat.strong_induction_on with
  | _ n ih =>
    by_cases h : n < 10
    · rw [renderNat, if_pos h]
      constructor
      · intro c hc
        simp at hc
        exact ⟨n, h, hc⟩
      · intro acc
        simp [parseNatDigits, digitVal_ofNat h]
    · rw [renderNat, if_neg h]
      have hlt : n / 10 < n := by omega
      obtain ⟨ihc, ihp⟩ := ih (n / 10) hlt
      constructor
      · intro c hc
        rcases List.mem_append.mp hc with hc | hc
        · exact ihc c hc
        · simp at hc
          exact ⟨n % 10, by omega, hc⟩
      · intro acc
        rw [parseNatDigits_append, ihp acc]
        simp only [parseNatDigits, digitVal_ofNat (show n % 10 < 10 by omega)]
        have hp : 10 ^ ((renderNat (n / 10)).length + 1) =
            10 ^ (renderNat (n / 10)).length * 10 := by ring
        simp [List.length_append, hp]
        ring_nf
        omega

theorem renderNat_ne_nil (n : ℕ) : renderNat n ≠ [] := by
  rw [renderNat]
  split <;> simp

theorem parseNatDigits_none_head (c : Char) (xs : List Char) :
    parseNatDigits (c :: xs) none = parseNatDigits (c :: xs) (some 0) := by
  simp only [parseNatDigits]
  cases digitVal c <;> simp

theorem parseNatDigits_renderNat (n : ℕ) : parseNatDigits (renderNat n) none = some n := by
  obtain ⟨c, cs, hcc⟩ : ∃ c cs, renderNat n = c :: cs := by
    cases hh : renderNat n with
    | nil => exact absurd hh (renderNat_ne_nil n)
    | cons c cs => exact ⟨c, cs, rfl⟩
  rw [hcc, parseNatDigits_none_head, ← hcc, (renderNat_spec n).2 0]
  simp

theorem pyInt_renderInt (a : ℤ) : pyInt (renderInt a) = some a := by
  by_cases ha : a < 0
  · rw [renderInt, if_pos ha]
    show (parseNatDigits (renderNat (-a).toNat) none).map (fun n => -(n : ℤ)) = some a
    rw [parseNatDigits_renderNat]
    simp
    omega
  · rw [renderInt, if_neg ha]
    obtain ⟨c, cs, hcc⟩ : ∃ c cs, renderNat a.toNat = c :: cs := by
      cases hh : renderNat a.toNat with
      | nil => exact absurd hh (renderNat_ne_nil _)
      | cons c cs => exact ⟨c, cs, rfl⟩
    have hcd : ∃ d : ℕ, d < 10 ∧ c = Char.ofNat (d + 48) :=
      (renderNat_spec a.toNat).1 c (hcc ▸ List.mem_cons_self c cs)
    obtain ⟨d, hd, hcd⟩ := hcd
    rw [hcc]
    have hne : c ≠ '-' := hcd ▸ ofNat_digit_ne_minus hd
    unfold pyInt
    split
    · rename_i rest heq
      exact absurd (List.head_eq_of_cons_eq heq.symm).symm hne
    · rw [← hcc, parseNatDigits_renderNat]
      simp
      omega

theorem splitChar_sep_append (sep : Char) (xs ys : List Char) (hx : sep ∉ xs) :
    splitChar sep (xs ++ sep :: ys) = xs :: splitChar sep ys := by
  induction xs with
  | nil => simp [splitChar]
  | cons c rest ih =>
    have hcs : c ≠ sep := fun h => hx (h ▸ List.mem_cons_self c rest)
    have hrs : sep ∉ rest := fun h => hx (List.mem_cons_of_mem c h)
    simp only [List.cons_append, splitChar, if_neg hcs, List.append_eq]
    rw [ih hrs]

theorem splitChar_not_mem (sep : Char) (xs : List Char) (hx : sep ∉ xs) :
    splitChar sep xs = [xs] := by
  induction xs with
  | nil => rfl
  | cons c rest ih =>
    have hcs : c ≠ sep := fun h => hx (h ▸ List.mem_cons_self c rest)
    have hrs : sep ∉ rest := fun h => hx (List.mem_cons_of_mem c h)
    simp only [splitChar, if_neg hcs, ih hrs]

theorem colon_not_mem_renderInt (a : ℤ) : ':' ∉ renderInt a := by
  intro hmem
  unfold renderInt at hmem
  have hdig : ∀ n : ℕ, ':' ∉ renderNat n := by
    intro n hn
    obtain ⟨d, hd, hcd⟩ := (renderNat_spec n).1 ':' hn
    exact ofNat_digit_ne_colon hd hcd.symm
  split at hmem
  · rcases List.mem_cons.mp hmem with h | h
    · exact absurd h (by decide)
    · exact hdig _ h
  · exact hdig _ hmem

theorem parse_range_render (a b : ℤ) (h : a < b) :
    parse_range (String.mk (renderInt a ++ ':' :: renderInt b)) = some (a, b) := by
  have hdata : (String.mk (renderInt a ++ ':' :: renderInt b)).data =
      renderInt a ++ ':' :: renderInt b := rfl
  unfold parse_range
  rw [hdata]
  rw [if_pos (List.mem_append_right _ (List.mem_cons_self _ _))]
  rw [splitChar_sep_append ':' _ _ (colon_not_mem_renderInt a),
    splitChar_not_mem ':' _ (colon_not_mem_renderInt b)]
  simp only [pyInt_renderInt]
  rw [if_neg (by omega)]

/-! ### Claim theorems -/

/-- C1: evaluation of coherence_3d at the failing input.  On a
constant-amplitude volume the code returns c ^ 2 / (27 c ^ 2 + 1e-6)
at every sample for patch (3, 3, 3); at c = 1 this is
1000000 / 27000001, below 1/10 and nowhere near the 1.0 the claim and
the docstring of the source promise.  The cause: scipy uniform_filter
computes the window mean, not the window sum the semblance formula
needs. -/
theorem coherence_constant_volume_value :
    (∀ (c : ℝ) (i j k : ℕ),
      (coherence_3d (constVol c) (3, 3, 3)).val i j k = c ^ 2 / (27 * c ^ 2 + 1 / 1000000)) ∧
    (coherence_3d (constVol 1) (3, 3, 3)).val 0 0 0 = 1000000 / 27000001 ∧
    (1000000 / 27000001 : ℝ) < 1 / 10 := by
  have key : ∀ (c : ℝ) (i j k : ℕ),
      (coherence_3d (constVol c) (3, 3, 3)).val i j k = c ^ 2 / (27 * c ^ 2 + 1 / 1000000) := by
    intro c i j k
    simp only [coherence_3d, uniformFilter3_constVol, uniformFilter3_sq_constVol]
    norm_num
  refine ⟨key, ?_, by norm_num⟩
  rw [key]
  norm_num

/-- C2: at the constant-ones volume with patch (3, 3, 3) the value the
code computes differs from the value S1 ^ 2 / (N * S2 + eps) the claim
states with S1 and S2 the window sums: the code divides window means,
yielding 1000000 / 27000001 instead of 729000000 / 729000001. -/
theorem coherence_code_vs_spec_formula :
    (coherence_3d (constVol 1) (3, 3, 3)).val 1 1 1 = 1000000 / 27000001 ∧
    specSemblance (constVol 1) (3, 3, 3) 1 1 1 = 729000000 / 729000001 ∧
    (1000000 / 27000001 : ℝ) ≠ 729000000 / 729000001 := by
  refine ⟨?_, ?_, by norm_num⟩
  · simp only [coherence_3d, uniformFilter3_constVol, uniformFilter3_sq_constVol]
    norm_num
  · simp only [specSemblance, windowSum3_constVol, windowSum3_sq_constVol]
    norm_num

/-- C3 counterexample: the mode string z-window, which is outside the
set the code recognises (the window mode is named z), is not rejected:
normalize_volume returns the input volume unchanged. -/
theorem normalize_unknown_mode_not_rejected :
    normalize_volume vol0 "z-window" 9 (1 / 1000000) = vol0 := rfl

/-- C3 amended: normalize_volume recognises exactly the mode strings
none, trace, z and both; any other mode string is silently treated as
a no-op and the input volume is returned unchanged, with no error. -/
theorem normalize_unknown_mode_identity (data : Volume) (mode : String) (w : ℕ) (eps : ℝ)
    (h1 : mode ≠ "none") (h2 : mode ≠ "trace") (h3 : mode ≠ "z") (h4 : mode ≠ "both") :
    normalize_volume data mode w eps = data := by
  simp [normalize_volume, h1, h2, h3, h4]

/-- C3 witness: the amended theorem applied to a concrete unknown mode. -/
theorem normalize_unknown_mode_identity_witness :
    (("garbage" : String) ≠ "none" ∧ ("garbage" : String) ≠ "trace" ∧
      ("garbage" : String) ≠ "z" ∧ ("garbage" : String) ≠ "both") ∧
    normalize_volume vol0 "garbage" 9 (1 / 1000000) = vol0 :=
  ⟨⟨by decide, by decide, by decide, by decide⟩,
    normalize_unknown_mode_identity vol0 "garbage" 9 (1 / 1000000)
      (by decide) (by decide) (by decide) (by decide)⟩

/-- C4 counterexample: the patch string 2,3,3 contains the component 2,
below the minimum 3, yet parse_patch accepts it, rounding 2 up to 3
before the bound is checked. -/
theorem parse_patch_two_accepted : parse_patch "2,3,3" = some (3, 3, 3) := by decide

/-- C4 amended: the lower bound 3 is enforced only after the even
components are rounded up to odd, so an input component of 2 is
accepted as 3; still, every tuple parse_patch returns has all
components odd and at least 3. -/
theorem parse_patch_components_min3_odd (s : String) (py px pz : ℤ)
    (h : parse_patch s = some (py, px, pz)) :
    (3 ≤ py ∧ 3 ≤ px ∧ 3 ≤ pz) ∧ py % 2 = 1 ∧ px % 2 = 1 ∧ pz % 2 = 1 := by
  unfold parse_patch at h
  repeat split at h
  all_goals simp_all
  obtain ⟨h1, h2, h3⟩ := h
  obtain ⟨hx, hz⟩ := h3
  subst h2; subst hx; subst hz
  exact ⟨h1, roundOdd_emod _, roundOdd_emod _, roundOdd_emod _⟩

/-- C4 witness: the amended theorem applied to a concrete accepted
patch string. -/
theorem parse_patch_components_min3_odd_witness :
    parse_patch "6,7,9" = some (7, 7, 9) ∧
    (3 ≤ (7 : ℤ) ∧ 3 ≤ (7 : ℤ) ∧ 3 ≤ (9 : ℤ)) ∧
      (7 : ℤ) % 2 = 1 ∧ (7 : ℤ) % 2 = 1 ∧ (9 : ℤ) % 2 = 1 :=
  ⟨by decide, parse_patch_components_min3_odd "6,7,9" 7 7 9 (by decide)⟩

/-- C5: normalization mode both equals the z-window mode applied to the
result of the trace mode, with the same window size and epsilon, for
every input volume; the trace pass always comes first. -/
theorem normalize_both_is_z_after_trace (data : Volume) (w : ℕ) (eps : ℝ) :
    normalize_volume data "both" w eps =
      normalize_volume (normalize_volume data "trace" w eps) "z" w eps := rfl

/-- C6: on every trace source and every valid range selection the bulk
path and the trace-by-trace fallback path of load_segy_cube both
succeed, produce the same shape, and agree sample for sample. -/
theorem load_fallback_agrees_with_bulk (f : SegySource) (ilR xlR zR : Option (ℤ × ℤ))
    (h1 : validRangeOpt f.nIlines ilR) (h2 : validRangeOpt f.nXlines xlR)
    (h3 : validRangeOpt f.nSamples zR) :
    ∃ vb vf : Volume,
      load_segy_cube f ilR xlR zR = Except.ok vb ∧
      load_segy_cube_fallback f ilR xlR zR = Except.ok vf ∧
      vb.shape = vf.shape ∧
      ∀ i j k : ℕ, i < vb.n1 → j < vb.n2 → k < vb.n3 → vb.val i j k = vf.val i j k := by
  obtain ⟨ha1, hb1, hc1⟩ := validRangeOpt_bounds f.nIlines h1
  obtain ⟨ha2, hb2, hc2⟩ := validRangeOpt_bounds f.nXlines h2
  obtain ⟨ha3, hb3, hc3⟩ := validRangeOpt_bounds f.nSamples h3
  have hcond : ¬(rEnd f.nIlines ilR > (f.nIlines : ℤ) ∨ rEnd f.nXlines xlR > (f.nXlines : ℤ) ∨
      rEnd f.nSamples zR > (f.nSamples : ℤ)) := by push_neg; exact ⟨hc1, hc2, hc3⟩
  have hs1 := sliceNorm_coe ha1 (le_trans hb1 hc1)
  have he1 := sliceNorm_coe (le_trans ha1 hb1) hc1
  have hs2 := sliceNorm_coe ha2 (le_trans hb2 hc2)
  have he2 := sliceNorm_coe (le_trans ha2 hb2) hc2
  have hs3 := sliceNorm_coe ha3 (le_trans hb3 hc3)
  have he3 := sliceNorm_coe (le_trans ha3 hb3) hc3
  simp only [load_segy_cube, load_segy_cube_fallback, if_neg hcond]
  refine ⟨_, _, rfl, rfl, ?_, ?_⟩
  · simp only [Volume.shape]
    refine Prod.ext ?_ (Prod.ext ?_ ?_) <;> simp <;> omega
  · intro i j k hi hj hk
    simp only [Volume.shape] at *
    have hi' : i < (rEnd f.nIlines ilR - rStart ilR).toNat := by omega
    have hj' : j < (rEnd f.nXlines xlR - rStart xlR).toNat := by omega
    have hk' : k < (rEnd f.nSamples zR - rStart zR).toNat := by omega
    simp only [segyCube, if_pos (And.intro hi' (And.intro hj' hk'))]
    congr 1
    push_cast
    rw [hs1, hs2]

/-- C6 witness: the path-equivalence theorem applied to a concrete
source and concrete valid ranges. -/
theorem load_fallback_agrees_with_bulk_witness :
    (validRangeOpt srcA.nIlines (some (0, 1)) ∧ validRangeOpt srcA.nXlines (some (1, 3)) ∧
      validRangeOpt srcA.nSamples (none : Option (ℤ × ℤ))) ∧
    ∃ vb vf : Volume,
      load_segy_cube srcA (some (0, 1)) (some (1, 3)) none = Except.ok vb ∧
      load_segy_cube_fallback srcA (some (0, 1)) (some (1, 3)) none = Except.ok vf ∧
      vb.shape = vf.shape ∧
      ∀ i j k : ℕ, i < vb.n1 → j < vb.n2 → k < vb.n3 → vb.val i j k = vf.val i j k := by
  have h1 : validRangeOpt srcA.nIlines (some ((0 : ℤ), (1 : ℤ))) := by
    refine ⟨le_refl 0, by norm_num, ?_⟩
    show (1 : ℤ) ≤ ((2 : ℕ) : ℤ)
    norm_num
  have h2 : validRangeOpt srcA.nXlines (some ((1 : ℤ), (3 : ℤ))) := by
    refine ⟨by norm_num, by norm_num, ?_⟩
    show (3 : ℤ) ≤ ((3 : ℕ) : ℤ)
    norm_num
  have h3 : validRangeOpt srcA.nSamples (none : Option (ℤ × ℤ)) := trivial
  exact ⟨⟨h1, h2, h3⟩, load_fallback_agrees_with_bulk srcA _ _ _ h1 h2 h3⟩

/-- C7: over the full default ranges load_segy_cube returns a volume of
the native shape of the source, and over strict valid sub-ranges it
returns a volume whose extent on each axis is exactly end minus start. -/
theorem load_shape_matches_ranges :
    (∀ f : SegySource,
      (load_segy_cube f none none none).map Volume.shape =
        Except.ok (f.nIlines, f.nXlines, f.nSamples)) ∧
    (∀ (f : SegySource) (a1 b1 a2 b2 a3 b3 : ℤ),
      0 ≤ a1 → a1 < b1 → b1 ≤ (f.nIlines : ℤ) →
      0 ≤ a2 → a2 < b2 → b2 ≤ (f.nXlines : ℤ) →
      0 ≤ a3 → a3 < b3 → b3 ≤ (f.nSamples : ℤ) →
      ∃ v : Volume,
        load_segy_cube f (some (a1, b1)) (some (a2, b2)) (some (a3, b3)) = Except.ok v ∧
        (v.n1 : ℤ) = b1 - a1 ∧ (v.n2 : ℤ) = b2 - a2 ∧ (v.n3 : ℤ) = b3 - a3) := by
  constructor
  · intro f
    have hcond : ¬(rEnd f.nIlines none > (f.nIlines : ℤ) ∨ rEnd f.nXlines none > (f.nXlines : ℤ) ∨
        rEnd f.nSamples none > (f.nSamples : ℤ)) := by simp [rEnd]
    simp only [load_segy_cube, if_neg hcond]
    simp only [Except.map, Volume.shape]
    have h1 : ∀ n : ℕ, sliceNorm n (rEnd n none) = n := by
      intro n; simp [rEnd, sliceNorm]
    have h2 : ∀ n : ℕ, sliceNorm n (rStart none) = 0 := by
      intro n; simp [rStart, sliceNorm]
    rw [h1, h1, h1, h2, h2, h2]
    simp
  · intro f a1 b1 a2 b2 a3 b3 ha1 hb1 hc1 ha2 hb2 hc2 ha3 hb3 hc3
    have hcond : ¬(rEnd f.nIlines (some (a1, b1)) > (f.nIlines : ℤ) ∨
        rEnd f.nXlines (some (a2, b2)) > (f.nXlines : ℤ) ∨
        rEnd f.nSamples (some (a3, b3)) > (f.nSamples : ℤ)) := by
      simp only [rEnd, Option.map_some', Option.getD_some, not_or, not_lt]
      exact ⟨hc1, hc2, hc3⟩
    simp only [load_segy_cube, if_neg hcond]
    have hs1 := sliceNorm_coe ha1 (le_trans (le_of_lt hb1) hc1)
    have he1 := sliceNorm_coe (le_trans ha1 (le_of_lt hb1)) hc1
    have hs2 := sliceNorm_coe ha2 (le_trans (le_of_lt hb2) hc2)
    have he2 := sliceNorm_coe (le_trans ha2 (le_of_lt hb2)) hc2
    have hs3 := sliceNorm_coe ha3 (le_trans (le_of_lt hb3) hc3)
    have he3 := sliceNorm_coe (le_trans ha3 (le_of_lt hb3)) hc3
    refine ⟨_, rfl, ?_, ?_, ?_⟩ <;>
      simp only [rStart, rEnd, Option.map_some', Option.getD_some] at * <;>
      omega

/-- C7 witness: the shape theorem applied to a concrete source, both
over the defaults and over a concrete strict sub-range. -/
theorem load_shape_matches_ranges_witness :
    ((load_segy_cube srcA none none none).map Volume.shape =
      Except.ok (srcA.nIlines, srcA.nXlines, srcA.nSamples)) ∧
    ((0 : ℤ) ≤ 0 ∧ (0 : ℤ) < 1 ∧ (1 : ℤ) ≤ (srcA.nIlines : ℤ) ∧
      (0 : ℤ) ≤ 1 ∧ (1 : ℤ) < 3 ∧ (3 : ℤ) ≤ (srcA.nXlines : ℤ) ∧
      (0 : ℤ) ≤ 0 ∧ (0 : ℤ) < 4 ∧ (4 : ℤ) ≤ (srcA.nSamples : ℤ)) ∧
    ∃ v : Volume,
      load_segy_cube srcA (some (0, 1)) (some (1, 3)) (some (0, 4)) = Except.ok v ∧
      (v.n1 : ℤ) = 1 - 0 ∧ (v.n2 : ℤ) = 3 - 1 ∧ (v.n3 : ℤ) = 4 - 0 := by
  have hA : (1 : ℤ) ≤ (srcA.nIlines : ℤ) := by show (1 : ℤ) ≤ ((2 : ℕ) : ℤ); norm_num
  have hB : (3 : ℤ) ≤ (srcA.nXlines : ℤ) := by show (3 : ℤ) ≤ ((3 : ℕ) : ℤ); norm_num
  have hC : (4 : ℤ) ≤ (srcA.nSamples : ℤ) := by show (4 : ℤ) ≤ ((4 : ℕ) : ℤ); norm_num
  refine ⟨load_shape_matches_ranges.1 srcA,
    ⟨le_refl 0, by norm_num, hA, by norm_num, by norm_num, hB, le_refl 0, by norm_num, hC⟩,
    load_shape_matches_ranges.2 srcA 0 1 1 3 0 4
      (le_refl 0) (by norm_num) hA (by norm_num) (by norm_num) hB (le_refl 0) (by norm_num) hC⟩

/-- C8: parse_patch on 4,4,4 succeeds with (5, 5, 5), every even value
incremented to the next odd, and fails on 1,1,1 because the components
are below the minimum 3. -/
theorem parse_patch_examples :
    parse_patch "4,4,4" = some (5, 5, 5) ∧ parse_patch "1,1,1" = none := by decide

/-- C9: in z-window normalization the local variance is clamped to be
non-negative before the square root, so the divisor is the square root
of a non-negative number plus eps, hence at least eps and nonzero for
positive eps, and the normalized sample is the well-defined real
quotient by that divisor. -/
theorem zwindow_divisor_bounded (v : Volume) (w : ℕ) (eps : ℝ) (i j k : ℕ)
    (h : 0 < eps) :
    0 ≤ max (zLocalVar v w i j k) 0 ∧
    eps ≤ zLocalStd v w eps i j k ∧
    zLocalStd v w eps i j k ≠ 0 ∧
    (zWindowNormalizeV v w eps).val i j k =
      (v.val i j k - zLocalMean v w i j k) / zLocalStd v w eps i j k := by
  have hs : 0 ≤ Real.sqrt (max (zLocalVar v w i j k) 0) := Real.sqrt_nonneg _
  refine ⟨le_max_right _ _, ?_, ?_, rfl⟩
  · unfold zLocalStd; linarith
  · unfold zLocalStd; intro h0; linarith

/-- C9 witness: the divisor bound applied to a concrete volume, window
and epsilon. -/
theorem zwindow_divisor_bounded_witness :
    (0 : ℝ) < 1 / 1000000 ∧
    (0 ≤ max (zLocalVar vol0 9 0 0 0) 0 ∧
      1 / 1000000 ≤ zLocalStd vol0 9 (1 / 1000000) 0 0 0 ∧
      zLocalStd vol0 9 (1 / 1000000) 0 0 0 ≠ 0 ∧
      (zWindowNormalizeV vol0 9 (1 / 1000000)).val 0 0 0 =
        (vol0.val 0 0 0 - zLocalMean vol0 9 0 0 0) / zLocalStd vol0 9 (1 / 1000000) 0 0 0) :=
  ⟨by norm_num, zwindow_divisor_bounded vol0 9 (1 / 1000000) 0 0 0 (by norm_num)⟩

/-- C10: the loader succeeds exactly when every requested end bound is
within the native extent, a criterion that never mentions the start
bounds, and parse_range accepts every string a:b with a < b, including
a negative start, concretely so for the string -5:3. -/
theorem load_validates_only_ends_and_parse_range_negative :
    (∀ (f : SegySource) (ilR xlR zR : Option (ℤ × ℤ)),
      (∃ v : Volume, load_segy_cube f ilR xlR zR = Except.ok v) ↔
        (rEnd f.nIlines ilR ≤ (f.nIlines : ℤ) ∧ rEnd f.nXlines xlR ≤ (f.nXlines : ℤ) ∧
          rEnd f.nSamples zR ≤ (f.nSamples : ℤ))) ∧
    (∀ a b : ℤ, a < b →
      parse_range (String.mk (renderInt a ++ ':' :: renderInt b)) = some (a, b)) ∧
    parse_range "-5:3" = some (-5, 3) := by
  refine ⟨?_, parse_range_render, by decide⟩
  intro f ilR xlR zR
  by_cases hcond : rEnd f.nIlines ilR > (f.nIlines : ℤ) ∨ rEnd f.nXlines xlR > (f.nXlines : ℤ) ∨
      rEnd f.nSamples zR > (f.nSamples : ℤ)
  · simp only [load_segy_cube, if_pos hcond]
    constructor
    · rintro ⟨v, hv⟩; exact absurd hv (by simp)
    · intro h; push_neg at h; omega
  · simp only [load_segy_cube, if_neg hcond]
    push_neg at hcond
    exact ⟨fun _ => hcond, fun _ => ⟨_, rfl⟩⟩

/-- C10 witness: the range-parser clause applied to a concrete negative
start. -/
theorem load_validates_only_ends_and_parse_range_negative_witness :
    (-7 : ℤ) < 2 ∧
    parse_range (String.mk (renderInt (-7) ++ ':' :: renderInt 2)) = some (-7, 2) :=
  ⟨by decide, load_validates_only_ends_and_parse_range_negative.2.1 (-7) 2 (by decide)⟩

end SeismicAttrs
